import Mathlib

/-!
Shallow embedding of the elizaOS documentation link checker
(`packages/docs/link_checker.py`) and verification of the frozen claims.

Strings are modelled by Lean `String` (a list of unicode code points, matching
Python `str` indexing); the file system and the network are modelled by
explicit arguments: file contents are passed as strings, and the network probe
performed by `requests.head` is a parameter `probe : String → Except String Nat`
returning either a status code or a stringified exception, as the spec's
design notes prescribe for testability.  Python floats are modelled by exact
rationals (the thresholds 0.85 and 0.9 become mkRat 17 20 and mkRat 9 10).
A Python exception that the code does not catch — in particular the
`ValueError("Invalid IPv6 URL")` that `urlparse` raises outside the `try`
block of `check_external_link` — is an `Except.error` propagated through the
calling chain.
-/

/-! ## Python `str.replace`, occurrence counting (for `apply_fix`) -/

/-- One pass of Python `str.replace(old, new)`: scan left to right, replace
each non-overlapping occurrence of `old` (leftmost first).  Fuel-bounded; the
callers pass `fuel = s.length`, which suffices whenever `old ≠ []`. -/
def replaceAux (old new : List Char) : Nat → List Char → List Char
  | 0, s => s
  | _ + 1, [] => []
  | fuel + 1, c :: cs =>
    if old.isPrefixOf (c :: cs) then
      new ++ replaceAux old new fuel ((c :: cs).drop old.length)
    else
      c :: replaceAux old new fuel cs

/-- Number of (non-overlapping, leftmost-first) occurrences of `old` found by
the same scan as `replaceAux`. -/
def countOccAux (old : List Char) : Nat → List Char → Nat
  | 0, _ => 0
  | _ + 1, [] => 0
  | fuel + 1, c :: cs =>
    if old.isPrefixOf (c :: cs) then
      countOccAux old fuel ((c :: cs).drop old.length) + 1
    else
      countOccAux old fuel cs

/-- Replace only the first occurrence found by the scan (Python
`str.replace(old, new, 1)`); used to contrast with the global replacement. -/
def replaceFirstAux (old new : List Char) : Nat → List Char → List Char
  | 0, s => s
  | _ + 1, [] => []
  | fuel + 1, c :: cs =>
    if old.isPrefixOf (c :: cs) then
      new ++ (c :: cs).drop old.length
    else
      c :: replaceFirstAux old new fuel cs

/-- Python `s.replace(old, new)` on strings (all occurrences). -/
def replaceAllStr (s old new : String) : String :=
  String.mk (replaceAux old.data new.data s.data.length s.data)

/-- Python `s.replace(old, new, 1)` on strings (first occurrence only). -/
def replaceFirstStr (s old new : String) : String :=
  String.mk (replaceFirstAux old.data new.data s.data.length s.data)

/-- Number of scan occurrences of `old` in `s`. -/
def countOccStr (old s : String) : Nat :=
  countOccAux old.data s.data.length s.data

/-! ## `difflib.SequenceMatcher(None, a, b).ratio()`

The checker computes `difflib.SequenceMatcher(None, a, b).ratio()`, i.e.
`2 * M / (len a + len b)` where `M` is the total size of the matching blocks
found by the recursive longest-matching-block algorithm with `isjunk = None`
and the default `autojunk` heuristic.  With `isjunk = None` the junk set
`bjunk` is empty; autojunk only removes "popular" characters of `b` (when
`len b ≥ 200` and the character occupies more than 1% of `b`) from the `b2j`
index used by the inner loop — popular characters are still crossed by the
extension loops. -/

/-- The autojunk heuristic of `SequenceMatcher`: with no explicit junk
predicate, a character of `b` is "popular" (and dropped from `b2j`, though
not junk) when `b` has length at least 200 and the character occurs more
than `len b / 100 + 1` times. -/
def popularB (b : List Char) (c : Char) : Bool :=
  decide (200 ≤ b.length) && decide (b.length / 100 + 1 < b.count c)

/-- Length of the run of pairwise-equal characters ending at positions
`i` of `a` and `j` of `b`, counting only positions whose `b`-character
satisfies `good` (the `j2len` chains of `find_longest_match` only extend
through non-junk `b` positions). -/
def sufLenP (a b : List Char) (good : Char → Bool) : Nat → Nat → Nat
  | 0, j =>
    match a.get? 0, b.get? j with
    | some x, some y => if x = y ∧ good y = true then 1 else 0
    | _, _ => 0
  | i + 1, 0 =>
    match a.get? (i + 1), b.get? 0 with
    | some x, some y => if x = y ∧ good y = true then 1 else 0
    | _, _ => 0
  | i + 1, j + 1 =>
    match a.get? (i + 1), b.get? (j + 1) with
    | some x, some y =>
      if x = y ∧ good y = true then sufLenP a b good i j + 1 else 0
    | _, _ => 0

/-- The dynamic-programming core of `find_longest_match` on the window
`[alo, ahi) × [blo, bhi)`: for every pair `(i, j)` of matching non-junk
positions (in the loop order of difflib: `i` ascending, then `j` ascending)
compute the length of the matching block ending there, truncated to the
window, and keep the first strictly-best one. -/
def flmCore (a b : List Char) (good : Char → Bool) (alo ahi blo bhi : Nat) :
    Nat × Nat × Nat :=
  (List.range' alo (ahi - alo)).foldl
    (fun best i =>
      (List.range' blo (bhi - blo)).foldl
        (fun best j =>
          match a.get? i, b.get? j with
          | some x, some y =>
            if x = y ∧ good y = true then
              let k := min (sufLenP a b good i j) (min (i + 1 - alo) (j + 1 - blo))
              if best.2.2 < k then (i + 1 - k, j + 1 - k, k) else best
            else best
          | _, _ => best)
        best)
    (alo, blo, 0)

/-- The left-extension while-loops of `find_longest_match`: grow the block
leftwards while the preceding characters match and the `b`-character
satisfies `p`. -/
def extendLeft (p : Char → Bool) (a b : List Char) (alo blo : Nat) :
    Nat → Nat × Nat × Nat → Nat × Nat × Nat
  | 0, best => best
  | fuel + 1, (besti, bestj, bestsize) =>
    if alo < besti ∧ blo < bestj then
      match a.get? (besti - 1), b.get? (bestj - 1) with
      | some x, some y =>
        if p y = true ∧ x = y then
          extendLeft p a b alo blo fuel (besti - 1, bestj - 1, bestsize + 1)
        else (besti, bestj, bestsize)
      | _, _ => (besti, bestj, bestsize)
    else (besti, bestj, bestsize)

/-- The right-extension while-loops of `find_longest_match`. -/
def extendRight (p : Char → Bool) (a b : List Char) (ahi bhi : Nat) :
    Nat → Nat × Nat × Nat → Nat × Nat × Nat
  | 0, best => best
  | fuel + 1, (besti, bestj, bestsize) =>
    if besti + bestsize < ahi ∧ bestj + bestsize < bhi then
      match a.get? (besti + bestsize), b.get? (bestj + bestsize) with
      | some x, some y =>
        if p y = true ∧ x = y then
          extendRight p a b ahi bhi fuel (besti, bestj, bestsize + 1)
        else (besti, bestj, bestsize)
      | _, _ => (besti, bestj, bestsize)
    else (besti, bestj, bestsize)

/-- `isbjunk` of `SequenceMatcher(None, a, b)`: membership in the junk set
`bjunk`, which is empty when `isjunk = None` — the autojunk "popular"
characters go into `bpopular`, not `bjunk`. -/
def isbjunk (_ : Char) : Bool := false

/-- `difflib.SequenceMatcher.find_longest_match` on a window, with
`isjunk = None` and the autojunk heuristic: the core loop over matches found
through `b2j` (popular characters removed), then the four extension loops —
left and right over non-junk characters, then left and right over junk
characters.  Since `bjunk` is empty, the first two loops cross every
matching character (popular ones included) and the junk loops never fire;
both are kept literally, with `isbjunk` as in the source. -/
def find_longest_match (a b : List Char) (alo ahi blo bhi : Nat) :
    Nat × Nat × Nat :=
  let good := fun c => !(popularB b c)
  let fuel := a.length + b.length + 1
  extendRight (fun c => isbjunk c) a b ahi bhi fuel
    (extendLeft (fun c => isbjunk c) a b alo blo fuel
      (extendRight (fun c => !(isbjunk c)) a b ahi bhi fuel
        (extendLeft (fun c => !(isbjunk c)) a b alo blo fuel
          (flmCore a b good alo ahi blo bhi))))

/-- Total size of the matching blocks of `get_matching_blocks` on a window:
take the longest match, then recurse on the parts to its left and right.
Fuel-bounded; each recursive window is strictly smaller, so
`fuel = a.length + b.length + 1` always suffices for the full window. -/
def matchTotal (a b : List Char) : Nat → Nat → Nat → Nat → Nat → Nat
  | 0, _, _, _, _ => 0
  | fuel + 1, alo, ahi, blo, bhi =>
    let r := find_longest_match a b alo ahi blo bhi
    if r.2.2 = 0 then 0
    else
      r.2.2 + matchTotal a b fuel alo r.1 blo r.2.1
        + matchTotal a b fuel (r.1 + r.2.2) ahi (r.2.1 + r.2.2) bhi

/-- `difflib.SequenceMatcher(None, a, b).ratio()` as an exact rational:
`2 M / (len a + len b)`, and `1` when both strings are empty. -/
def similarity (a b : List Char) : ℚ :=
  let total := a.length + b.length
  if total = 0 then 1
  else mkRat (2 * (matchTotal a b (total + 1) 0 a.length 0 b.length : Int)) total

/-! ## Data model -/

/-- One entry of `self.file_list` as built by `build_file_list`. -/
structure FileRecord where
  file_path : String
  url_path : String
  relative_path : String
deriving DecidableEq, Repr

/-- One extracted link, as built by `extract_links` (the `end` key of the
Python dict is named `endPos`, since `end` is reserved in Lean). -/
structure Link where
  text : String
  url : String
  type : String
  start : Nat
  endPos : Nat
  full_match : String
deriving DecidableEq, Repr

/-- One per-link result dict of `check_file_links`.  The `error` key, only
present for external links in Python, is an `Option` that stays `none`
elsewhere. -/
structure LinkResult where
  file : String
  link : Link
  link_type : String
  valid : Bool
  suggestion : Option String
  confidence : String
  error : Option String
deriving DecidableEq, Repr

/-- One entry of `self.fixes_applied`. -/
structure FixRecord where
  file : String
  old_url : String
  new_url : String
  confidence : String
  type : String
deriving DecidableEq, Repr

/-- Result of one `apply_fix` call: the returned boolean, the file content
after the call, and the fix list after the call. -/
structure ApplyFixResult where
  ok : Bool
  content : String
  fixes : List FixRecord
deriving DecidableEq, Repr

/-- `self.external_cache`, a Python dict from URL to (validity, error):
modelled as an association list where insertion prepends and lookup takes the
first (i.e. most recent) binding. -/
abbrev Cache := List (String × (Bool × Option String))

def cacheLookup : Cache → String → Option (Bool × Option String)
  | [], _ => none
  | (u, v) :: rest, url => if u = url then some v else cacheLookup rest url

def cacheInsert (cache : Cache) (url : String) (v : Bool × Option String) : Cache :=
  (url, v) :: cache

/-- Python truthiness of the optional `suggestion` string: `None` and the
empty string are falsy. -/
def truthy : Option String → Bool
  | none => false
  | some s => s != ""

/-! ## `build_file_list` -/

/-- `build_file_list`: one `FileRecord` per discovered `*.mdx` relative path;
the URL path is `"/" + str(relative_path).replace(".mdx", "")` (note: Python
`str.replace` removes every occurrence of `".mdx"`, not just a final
extension, although the code comment says "remove .mdx extension"). -/
def build_file_list (docsDir : String) (relPaths : List String) : List FileRecord :=
  relPaths.map (fun rp =>
    ⟨docsDir ++ "/" ++ rp, "/" ++ replaceAllStr rp ".mdx" "", rp⟩)

/-! ## `extract_links` -/

/-- Match of the regex `\[([^\]]*)\]\(([^)]+)\)` anchored at the start of
`cs` (which sits at offset `pos` of the file): `[`, then the run of
non-`]` characters, `](`, then a nonempty run of non-`)` characters,
then `)`. -/
def matchMarkdownAt (cs : List Char) (pos : Nat) : Option Link :=
  match cs with
  | '[' :: r1 =>
    let text := r1.takeWhile (fun c => c != ']')
    match r1.drop text.length with
    | ']' :: '(' :: r3 =>
      let urlRun := r3.takeWhile (fun c => c != ')')
      if urlRun = [] then none
      else
        match r3.drop urlRun.length with
        | ')' :: _ =>
          let len := text.length + urlRun.length + 4
          some ⟨String.mk text, String.mk urlRun, "markdown", pos, pos + len,
            String.mk (cs.take len)⟩
        | _ => none
    | _ => none
  | _ => none

def quoteChar (c : Char) : Bool := c == '"' || c == '\''

/-- Match of the regex `attr["']([^"']+)["']` anchored at the start of `cs`
(with `attr` the literal `href=` or `src=`); as in the Python pattern the two
quote characters need not agree. -/
def matchAttrAt (attr : List Char) (tyName : String) (cs : List Char) (pos : Nat) :
    Option Link :=
  if attr.isPrefixOf cs then
    match cs.drop attr.length with
    | q :: r1 =>
      if quoteChar q then
        let urlRun := r1.takeWhile (fun c => !(quoteChar c))
        if urlRun = [] then none
        else
          match r1.drop urlRun.length with
          | q2 :: _ =>
            if quoteChar q2 then
              let len := attr.length + urlRun.length + 2
              some ⟨"", String.mk urlRun, tyName, pos, pos + len,
                String.mk (cs.take len)⟩
            else none
          | [] => none
      else none
    | [] => none
  else none

/-- `re.finditer` for one of the three anchored patterns: scan left to right,
emit each match and resume just after it, otherwise advance one character. -/
def scanLinks (tryAt : List Char → Nat → Option Link) :
    Nat → List Char → Nat → List Link
  | 0, _, _ => []
  | _ + 1, [], _ => []
  | fuel + 1, c :: rest, pos =>
    match tryAt (c :: rest) pos with
    | some lk =>
      let len := lk.endPos - pos
      lk :: scanLinks tryAt fuel ((c :: rest).drop len) (pos + len)
    | none => scanLinks tryAt fuel rest (pos + 1)

/-- `extract_links`: the markdown matches, then the `href` matches, then the
`src` matches, each from an independent scan of the whole content. -/
def extract_links (content : String) : List Link :=
  let cs := content.data
  scanLinks matchMarkdownAt cs.length cs 0
    ++ scanLinks (matchAttrAt "href=".data "href") cs.length cs 0
    ++ scanLinks (matchAttrAt "src=".data "src") cs.length cs 0

/-! ## `classify_link` -/

/-- Python `s.startswith(pre)`: `pre` is a prefix of the character sequence
of `s`. -/
def startsWithStr (s pre : String) : Bool :=
  pre.data.isPrefixOf s.data

def classify_link (url : String) : String :=
  if startsWithStr url "#" then "anchor"
  else if startsWithStr url "http://" ∨ startsWithStr url "https://" then "external"
  else if startsWithStr url "/" then "internal_absolute"
  else if startsWithStr url "./" ∨ startsWithStr url "../" then "internal_relative"
  else "unknown"

/-! ## `check_internal_link` -/

/-- `url.split("#")[0]`: the text before the first `#`. -/
def stripAnchor (url : String) : String :=
  String.mk (url.data.takeWhile (fun c => c != '#'))

/-- The candidate list built by the second loop of `check_internal_link`:
in file-index order, the URL paths whose similarity with the requested path
exceeds 0.85, paired with that similarity. -/
def candidatesOf (fl : List FileRecord) (p : String) : List (String × ℚ) :=
  fl.filterMap (fun f =>
    if similarity p.data f.url_path.data > mkRat 17 20 then
      some (f.url_path, similarity p.data f.url_path.data)
    else none)

/-- Stable insertion for a descending sort by the rational component; on
ties the inserted element (which precedes the list elements in the original
order) goes first, as Python's stable `list.sort` does. -/
def insertDesc (x : String × ℚ) : List (String × ℚ) → List (String × ℚ)
  | [] => [x]
  | y :: ys => if y.2 ≤ x.2 then x :: y :: ys else y :: insertDesc x ys

/-- `candidates.sort(key=lambda x: x[1], reverse=True)`: a stable descending
sort by similarity. -/
def sortDesc (l : List (String × ℚ)) : List (String × ℚ) :=
  l.foldr insertDesc []

/-- `check_internal_link`: exact match against the index, else the
best fuzzy candidate above the 0.85 threshold, else no suggestion. -/
def check_internal_link (fl : List FileRecord) (url : String) :
    Bool × Option String :=
  let file_path := stripAnchor url
  if fl.any (fun f => f.url_path == file_path) then (true, none)
  else
    match sortDesc (candidatesOf fl file_path) with
    | [] => (false, none)
    | c :: _ => (false, some c.1)

/-! ## `urlparse(url).hostname` and `check_external_link` -/

/-- The characters allowed in a URL scheme by `urllib.parse`. -/
def schemeChar (c : Char) : Bool :=
  c.isAlpha || c.isDigit || c == '+' || c == '-' || c == '.'

/-- `urlsplit` removes every tab, carriage return and newline from the URL
before parsing (`_UNSAFE_URL_BYTES_TO_REMOVE`). -/
def removeUnsafeBytes (cs : List Char) : List Char :=
  cs.filter (fun c => !(c == '\t' || c == '\r' || c == '\n'))

/-- Drop a leading `scheme:` when there is a colon at a positive index, the
first character is an ASCII letter, and everything before the colon is a
scheme character (the `urlsplit` rule of CPython 3.11+). -/
def splitScheme (cs : List Char) : List Char :=
  let before := cs.takeWhile (fun c => c != ':')
  match before with
  | [] => cs
  | c :: _ =>
    if c.isAlpha ∧ before.length < cs.length ∧ before.all schemeChar then
      cs.drop (before.length + 1)
    else cs

/-- The netloc of `urlsplit`: present only after a leading `//`, and
delimited by the next `/`, `?` or `#`. -/
def netlocOf (cs : List Char) : List Char :=
  if cs.take 2 = ['/', '/'] then
    (cs.drop 2).takeWhile (fun c => !(c == '/' || c == '?' || c == '#'))
  else []

/-- `netloc.rpartition('@')[2]`: the part after the last `@` (userinfo
stripped), or the whole netloc when there is none. -/
def afterLastAt (cs : List Char) : List Char :=
  (cs.reverse.takeWhile (fun c => c != '@')).reverse

/-- Hostname from the hostinfo: a bracketed IPv6 literal if a `[` is
present, otherwise everything before the port colon. -/
def hostOf (hostinfo : List Char) : List Char :=
  if hostinfo.any (fun c => c == '[') then
    ((hostinfo.dropWhile (fun c => c != '[')).drop 1).takeWhile (fun c => c != ']')
  else hostinfo.takeWhile (fun c => c != ':')

/-- `urlparse(url).hostname`: lowercased hostname, `None` when empty.
`urlsplit` raises `ValueError("Invalid IPv6 URL")` when the netloc contains
a `[` without a `]` or a `]` without a `[`; this uncaught exception is the
`Except.error` outcome. -/
def hostname (url : String) : Except String (Option String) :=
  let netloc := netlocOf (splitScheme (removeUnsafeBytes url.data))
  if (netloc.contains '[' && !(netloc.contains ']'))
      || (netloc.contains ']' && !(netloc.contains '[')) then
    Except.error "Invalid IPv6 URL"
  else
    let h := (hostOf (afterLastAt netloc)).map Char.toLower
    Except.ok (if h = [] then none else some (String.mk h))

/-- The fixed `skip_domains` list of `check_external_link`. -/
def skipDomains : List String :=
  ["localhost", "127.0.0.1", "example.com", "test.com", "placeholder.com"]

/-- The `requests.head` part of `check_external_link`: status `< 400` is
valid, otherwise the error is the formatted status, and an exception is
stringified. -/
def probeResult (probe : String → Except String Nat) (url : String) :
    Bool × Option String :=
  match probe url with
  | Except.ok code =>
    if code < 400 then (true, none) else (false, some ("HTTP " ++ toString code))
  | Except.error e => (false, some e)

/-- The guard `parsed.hostname in skip_domains` of `check_external_link`,
applied to a successfully parsed hostname (false for `None`, which is not in
the list). -/
def isSkipHost (h : Option String) : Bool :=
  match h with
  | some hn => skipDomains.contains hn
  | none => false

/-- `check_external_link`: cached result first; then `urlparse` — which sits
outside the `try` block, so its `ValueError` propagates uncaught and aborts
the checker (the `Except.error` outcome); then the hostname denylist (always
valid, no probe); otherwise probe and cache the outcome. -/
def check_external_link (probe : String → Except String Nat) (cache : Cache)
    (url : String) : Except String ((Bool × Option String) × Cache) :=
  match cacheLookup cache url with
  | some v => Except.ok (v, cache)
  | none =>
    match hostname url with
    | Except.error e => Except.error e
    | Except.ok h =>
      if isSkipHost h then
        Except.ok ((true, none), cacheInsert cache url (true, none))
      else
        let r := probeResult probe url
        Except.ok (r, cacheInsert cache url r)

/-! ## `check_file_links` -/

/-- The per-link body of the loop of `check_file_links`: classify, then
validate according to the class, starting from the defaults
`valid = True, suggestion = None, confidence = "high"`.  The `anchor`,
`internal_relative` and `unknown` classes keep the defaults.  A `ValueError`
escaping `check_external_link` propagates here too (there is no handler in
the loop). -/
def processLink (fl : List FileRecord) (probe : String → Except String Nat)
    (fp : String) (cache : Cache) (link : Link) :
    Except String (LinkResult × Cache) :=
  let url := link.url
  let lt := classify_link url
  if lt = "internal_absolute" then
    let vs := check_internal_link fl url
    let conf :=
      if truthy vs.2 then
        if similarity url.data (vs.2.getD "").data > mkRat 9 10 then "high" else "medium"
      else "high"
    Except.ok (⟨fp, link, lt, vs.1, vs.2, conf, none⟩, cache)
  else if lt = "external" then
    match check_external_link probe cache url with
    | Except.error e => Except.error e
    | Except.ok rc =>
      Except.ok (⟨fp, link, lt, rc.1.1, none,
        if rc.1.1 = false then "low" else "high", rc.1.2⟩, rc.2)
  else
    Except.ok (⟨fp, link, lt, true, none, "high", none⟩, cache)

/-- One fold step of `check_file_links`, threading the external cache and
propagating an escaped exception. -/
def cflStep (fl : List FileRecord) (probe : String → Except String Nat)
    (fp : String) (acc : Except String (List LinkResult × Cache)) (link : Link) :
    Except String (List LinkResult × Cache) :=
  match acc with
  | Except.error e => Except.error e
  | Except.ok acc2 =>
    match processLink fl probe fp acc2.2 link with
    | Except.error e => Except.error e
    | Except.ok rc => Except.ok (acc2.1 ++ [rc.1], rc.2)

/-- `check_file_links` on a successfully-read content string: the result
list in link order together with the external cache after the calls, or the
uncaught exception that aborts the run. -/
def check_file_links (fl : List FileRecord) (probe : String → Except String Nat)
    (fp : String) (content : String) (cache : Cache) :
    Except String (List LinkResult × Cache) :=
  (extract_links content).foldl (cflStep fl probe fp) (Except.ok ([], cache))

/-! ## `apply_fix` -/

/-- The tail of `apply_fix`: write back and record the fix only when the
substituted content differs from what was read. -/
def applyFixWrite (fp : String) (content : String) (fixes : List FixRecord)
    (lr : LinkResult) (old_url new_url : String) (new_content : String) :
    ApplyFixResult :=
  if new_content ≠ content then
    ⟨true, new_content, fixes ++ [⟨fp, old_url, new_url, lr.confidence, lr.link_type⟩]⟩
  else ⟨false, content, fixes⟩

/-- `apply_fix`: no-op for valid results or falsy suggestions; rebuild the
full old and new tokens for `markdown` and `href` links and substitute every
occurrence; any other link type (in particular `src`) is a no-op. -/
def apply_fix (fp : String) (content : String) (fixes : List FixRecord)
    (lr : LinkResult) : ApplyFixResult :=
  if lr.valid = true ∨ truthy lr.suggestion = false then ⟨false, content, fixes⟩
  else
    match lr.suggestion with
    | none => ⟨false, content, fixes⟩
    | some new_url =>
      let old_url := lr.link.url
      if lr.link.type = "markdown" then
        let old_link := "[" ++ lr.link.text ++ "](" ++ old_url ++ ")"
        let new_link := "[" ++ lr.link.text ++ "](" ++ new_url ++ ")"
        applyFixWrite fp content fixes lr old_url new_url
          (replaceAllStr content old_link new_link)
      else if lr.link.type = "href" then
        let old_href := "href=\"" ++ old_url ++ "\""
        let new_href := "href=\"" ++ new_url ++ "\""
        applyFixWrite fp content fixes lr old_url new_url
          (replaceAllStr content old_href new_href)
      else ⟨false, content, fixes⟩

/-- The full old token that `apply_fix` substitutes for a markdown or href
link result. -/
def oldToken (lr : LinkResult) : String :=
  if lr.link.type = "markdown" then
    "[" ++ lr.link.text ++ "](" ++ lr.link.url ++ ")"
  else "href=\"" ++ lr.link.url ++ "\""

/-- The replacement token for a markdown or href link result, given the
suggestion `s`. -/
def newToken (lr : LinkResult) (s : String) : String :=
  if lr.link.type = "markdown" then
    "[" ++ lr.link.text ++ "](" ++ s ++ ")"
  else "href=\"" ++ s ++ "\""

/-! ## `check_all_links` (per broken link) and the report filter -/

/-- State after processing one link result inside `check_all_links`. -/
structure StepResult where
  content : String
  fixes : List FixRecord
  broken : List LinkResult
  fixedFlag : Bool
deriving DecidableEq, Repr

/-- The per-link-result body of the `check_all_links` loop: an invalid
result is appended to `self.broken_links`, and a fix is attempted exactly
when the confidence is high or medium and the suggestion is truthy. -/
def check_all_links_step (fp : String) (content : String) (fixes : List FixRecord)
    (broken : List LinkResult) (lr : LinkResult) : StepResult :=
  if lr.valid = true then ⟨content, fixes, broken, false⟩
  else
    if (lr.confidence = "high" ∨ lr.confidence = "medium") ∧ truthy lr.suggestion then
      let r := apply_fix fp content fixes lr
      ⟨r.content, r.fixes, broken ++ [lr], r.ok⟩
    else ⟨content, fixes, broken ++ [lr], false⟩

/-- The `remaining_broken` filter of `generate_report`: broken links with
no recorded fix for the same file and old URL. -/
def remaining_broken (broken : List LinkResult) (fixes : List FixRecord) :
    List LinkResult :=
  broken.filter (fun l =>
    !(fixes.any (fun fx => fx.old_url == l.link.url && fx.file == l.file)))

/-! ## Concrete fixtures used by the claim witnesses and counterexample -/

def c4probe : String → Except String Nat := fun _ => Except.error "probe"

def c4r : LinkResult :=
  ⟨"f", ⟨"x", "/abcdefx", "markdown", 0, 13, "[x](/abcdefx)"⟩,
    "internal_absolute", false, some "/abcdefg", "medium", none⟩

def c5cLr : LinkResult :=
  ⟨"f", ⟨"x", "/guides/intro", "markdown", 0, 18, "[x](/guides/intro)"⟩,
    "internal_absolute", false, some "/guides/intro)", "high", none⟩

def c5wLr : LinkResult :=
  ⟨"f", ⟨"x", "/abcdefx", "markdown", 0, 13, "[x](/abcdefx)"⟩,
    "internal_absolute", false, some "/abcdefg", "medium", none⟩

def c6lr : LinkResult :=
  ⟨"f", ⟨"", "/img.png", "src", 0, 14, "src=\"/img.png\""⟩,
    "internal_absolute", false, some "/image.png", "medium", none⟩

def c10lr : LinkResult :=
  ⟨"f", ⟨"x", "/abcdefx", "markdown", 0, 13, "[x](/abcdefx)"⟩,
    "internal_absolute", false, some "/abcdefg", "medium", none⟩

/-! ## Lemmas about the replacement scan -/

theorem isPrefixOf_append_drop :
    ∀ (old s : List Char), old.isPrefixOf s = true → old ++ s.drop old.length = s
  | [], s, _ => by simp
  | _ :: _, [], h => by simp [List.isPrefixOf] at h
  | o :: os, c :: cs, h => by
    simp only [List.isPrefixOf, Bool.and_eq_true, beq_iff_eq] at h
    obtain ⟨rfl, h2⟩ := h
    have ih := isPrefixOf_append_drop os cs h2
    simp [List.drop_succ_cons, ih]

theorem replaceAux_of_countOcc_zero (old new : List Char) :
    ∀ (fuel : Nat) (s : List Char), countOccAux old fuel s = 0 →
      replaceAux old new fuel s = s
  | 0, _, _ => rfl
  | _ + 1, [], _ => rfl
  | fuel + 1, c :: cs, h => by
    cases hp : old.isPrefixOf (c :: cs) with
    | true => simp [countOccAux, hp] at h
    | false =>
      have h2 : countOccAux old fuel cs = 0 := by simpa [countOccAux, hp] using h
      simp [replaceAux, hp, replaceAux_of_countOcc_zero old new fuel cs h2]

theorem replaceAux_same (old : List Char) (hold : old ≠ []) :
    ∀ (fuel : Nat) (s : List Char), s.length ≤ fuel → replaceAux old old fuel s = s
  | 0, _, _ => rfl
  | _ + 1, [], _ => rfl
  | fuel + 1, c :: cs, h => by
    have hlold : 1 ≤ old.length := List.length_pos.mpr hold
    cases hp : old.isPrefixOf (c :: cs) with
    | true =>
      have hsum := congrArg List.length (isPrefixOf_append_drop old (c :: cs) hp)
      simp only [List.length_append, List.length_cons] at hsum
      have hlen : ((c :: cs).drop old.length).length ≤ fuel := by
        simp only [List.length_cons] at h
        simp only [List.length_drop, List.length_cons]
        omega
      simp only [replaceAux, hp, if_true, replaceAux_same old hold fuel _ hlen]
      exact isPrefixOf_append_drop old (c :: cs) hp
    | false =>
      have hlen : cs.length ≤ fuel := by
        simp only [List.length_cons] at h; omega
      simp [replaceAux, hp, replaceAux_same old hold fuel cs hlen]

theorem replaceAux_len_ge (old new : List Char) (hold : old ≠ [])
    (hlt : old.length < new.length) :
    ∀ (fuel : Nat) (s : List Char), s.length ≤ fuel →
      s.length + countOccAux old fuel s ≤ (replaceAux old new fuel s).length
  | 0, _, h => by simp_all [countOccAux, replaceAux]
  | _ + 1, [], _ => by simp [countOccAux, replaceAux]
  | fuel + 1, c :: cs, h => by
    have hlold : 1 ≤ old.length := List.length_pos.mpr hold
    cases hp : old.isPrefixOf (c :: cs) with
    | true =>
      have hsum := congrArg List.length (isPrefixOf_append_drop old (c :: cs) hp)
      simp only [List.length_append, List.length_cons] at hsum
      have hlen : ((c :: cs).drop old.length).length ≤ fuel := by
        simp only [List.length_cons] at h
        simp only [List.length_drop, List.length_cons]
        omega
      have ih := replaceAux_len_ge old new hold hlt fuel _ hlen
      simp only [replaceAux, countOccAux, hp, if_true, List.length_append,
        List.length_cons]
      omega
    | false =>
      have hlen : cs.length ≤ fuel := by
        simp only [List.length_cons] at h; omega
      have ih := replaceAux_len_ge old new hold hlt fuel cs hlen
      simp only [replaceAux, countOccAux, hp, Bool.false_eq_true, if_false,
        List.length_cons]
      omega

theorem replaceAux_len_le (old new : List Char) (hold : old ≠ [])
    (hlt : new.length < old.length) :
    ∀ (fuel : Nat) (s : List Char), s.length ≤ fuel →
      (replaceAux old new fuel s).length + countOccAux old fuel s ≤ s.length
  | 0, _, _ => by simp [countOccAux, replaceAux]
  | _ + 1, [], _ => by simp [countOccAux, replaceAux]
  | fuel + 1, c :: cs, h => by
    have hlold : 1 ≤ old.length := List.length_pos.mpr hold
    cases hp : old.isPrefixOf (c :: cs) with
    | true =>
      have hsum := congrArg List.length (isPrefixOf_append_drop old (c :: cs) hp)
      simp only [List.length_append, List.length_cons] at hsum
      have hlen : ((c :: cs).drop old.length).length ≤ fuel := by
        simp only [List.length_cons] at h
        simp only [List.length_drop, List.length_cons]
        omega
      have ih := replaceAux_len_le old new hold hlt fuel _ hlen
      simp only [replaceAux, countOccAux, hp, if_true, List.length_append,
        List.length_cons]
      omega
    | false =>
      have hlen : cs.length ≤ fuel := by
        simp only [List.length_cons] at h; omega
      have ih := replaceAux_len_le old new hold hlt fuel cs hlen
      simp only [replaceAux, countOccAux, hp, Bool.false_eq_true, if_false,
        List.length_cons]
      omega

theorem replaceAux_ne_self_eqlen (old new : List Char) (hne : old ≠ new)
    (hl : old.length = new.length) :
    ∀ (fuel : Nat) (s : List Char), 1 ≤ countOccAux old fuel s →
      replaceAux old new fuel s ≠ s
  | 0, _, h => by simp [countOccAux] at h
  | _ + 1, [], h => by simp [countOccAux] at h
  | fuel + 1, c :: cs, h => by
    cases hp : old.isPrefixOf (c :: cs) with
    | true =>
      have hstep : replaceAux old new (fuel + 1) (c :: cs)
          = new ++ replaceAux old new fuel ((c :: cs).drop old.length) := by
        simp [replaceAux, hp]
      intro heq
      rw [hstep] at heq
      conv at heq => rw [← isPrefixOf_append_drop old (c :: cs) hp]
      exact hne ((List.append_inj heq hl.symm).1.symm)
    | false =>
      have hstep : replaceAux old new (fuel + 1) (c :: cs)
          = c :: replaceAux old new fuel cs := by
        simp [replaceAux, hp]
      intro heq
      rw [hstep, List.cons.injEq] at heq
      have hc : 1 ≤ countOccAux old fuel cs := by
        simpa [countOccAux, hp] using h
      exact replaceAux_ne_self_eqlen old new hne hl fuel cs hc heq.2

theorem replaceAux_ne_self (old new : List Char) (hold : old ≠ []) (hne : old ≠ new)
    (fuel : Nat) (s : List Char) (hfuel : s.length ≤ fuel)
    (hc : 1 ≤ countOccAux old fuel s) : replaceAux old new fuel s ≠ s := by
  rcases Nat.lt_trichotomy old.length new.length with hl | hl | hl
  · intro heq
    have := replaceAux_len_ge old new hold hl fuel s hfuel
    rw [heq] at this
    omega
  · exact replaceAux_ne_self_eqlen old new hne hl fuel s hc
  · intro heq
    have := replaceAux_len_le old new hold hl fuel s hfuel
    rw [heq] at this
    omega

theorem replaceAux_ne_first (old new : List Char) (hold : old ≠ []) (hne : old ≠ new) :
    ∀ (fuel : Nat) (s : List Char), s.length ≤ fuel → 2 ≤ countOccAux old fuel s →
      replaceAux old new fuel s ≠ replaceFirstAux old new fuel s
  | 0, _, _, h => by simp [countOccAux] at h
  | _ + 1, [], _, h => by simp [countOccAux] at h
  | fuel + 1, c :: cs, hfuel, h => by
    have hlold : 1 ≤ old.length := List.length_pos.mpr hold
    cases hp : old.isPrefixOf (c :: cs) with
    | true =>
      intro heq
      have hstep : replaceAux old new (fuel + 1) (c :: cs)
          = new ++ replaceAux old new fuel ((c :: cs).drop old.length) := by
        simp [replaceAux, hp]
      have hstep2 : replaceFirstAux old new (fuel + 1) (c :: cs)
          = new ++ (c :: cs).drop old.length := by
        simp [replaceFirstAux, hp]
      rw [hstep, hstep2] at heq
      have hrest := List.append_cancel_left heq
      have hsum := congrArg List.length (isPrefixOf_append_drop old (c :: cs) hp)
      simp only [List.length_append, List.length_cons] at hsum
      have hlen : ((c :: cs).drop old.length).length ≤ fuel := by
        simp only [List.length_cons] at hfuel
        simp only [List.length_drop, List.length_cons]
        omega
      have hc : 1 ≤ countOccAux old fuel ((c :: cs).drop old.length) := by
        have : countOccAux old (fuel + 1) (c :: cs)
            = countOccAux old fuel ((c :: cs).drop old.length) + 1 := by
          simp [countOccAux, hp]
        omega
      exact replaceAux_ne_self old new hold hne fuel _ hlen hc hrest
    | false =>
      intro heq
      have hstep : replaceAux old new (fuel + 1) (c :: cs)
          = c :: replaceAux old new fuel cs := by
        simp [replaceAux, hp]
      have hstep2 : replaceFirstAux old new (fuel + 1) (c :: cs)
          = c :: replaceFirstAux old new fuel cs := by
        simp [replaceFirstAux, hp]
      rw [hstep, hstep2, List.cons.injEq] at heq
      have hc : 2 ≤ countOccAux old fuel cs := by
        simpa [countOccAux, hp] using h
      have hlen : cs.length ≤ fuel := by
        simp only [List.length_cons] at hfuel; omega
      exact replaceAux_ne_first old new hold hne fuel cs hlen hc heq.2

/-! ## Evaluation of `similarity` against an empty second string -/

theorem foldl_keep {β : Type} (f : Nat × Nat × Nat → β → Nat × Nat × Nat)
    (hf : ∀ x b, f x b = x) : ∀ (l : List β) (x : Nat × Nat × Nat), l.foldl f x = x
  | [], _ => rfl
  | b :: l, x => by rw [List.foldl_cons, hf, foldl_keep f hf l x]

theorem flmCore_bempty (a b : List Char) (good : Char → Bool) (alo ahi blo : Nat) :
    flmCore a b good alo ahi blo blo = (alo, blo, 0) := by
  unfold flmCore
  rw [Nat.sub_self]
  exact foldl_keep _ (fun x i => rfl) _ _

theorem extendLeft_stall (p : Char → Bool) (a b : List Char) (alo blo : Nat) :
    ∀ (fuel k : Nat), extendLeft p a b alo blo fuel (alo, blo, k) = (alo, blo, k)
  | 0, _ => rfl
  | fuel + 1, k => by
    show (if alo < alo ∧ blo < blo then _ else _) = _
    rw [if_neg (by omega)]

theorem extendRight_stall (p : Char → Bool) (a b : List Char) (ahi bhi : Nat)
    (besti bestj k : Nat) (h : bhi ≤ bestj + k) :
    ∀ (fuel : Nat), extendRight p a b ahi bhi fuel (besti, bestj, k) = (besti, bestj, k)
  | 0 => rfl
  | fuel + 1 => by
    show (if besti + k < ahi ∧ bestj + k < bhi then _ else _) = _
    rw [if_neg (by omega)]

theorem flm_bempty (a b : List Char) (alo ahi blo : Nat) :
    find_longest_match a b alo ahi blo blo = (alo, blo, 0) := by
  simp only [find_longest_match]
  rw [flmCore_bempty]
  rw [extendLeft_stall]
  rw [extendRight_stall _ a b ahi blo alo blo 0 (by omega)]
  rw [extendLeft_stall]
  rw [extendRight_stall _ a b ahi blo alo blo 0 (by omega)]

theorem matchTotal_bempty (a b : List Char) (fuel alo ahi blo : Nat) :
    matchTotal a b (fuel + 1) alo ahi blo blo = 0 := by
  simp [matchTotal, flm_bempty]

theorem similarity_nil_right (a : List Char) :
    similarity a [] = if a.length = 0 then 1 else 0 := by
  by_cases h : a.length = 0
  · have ha : a = [] := List.length_eq_zero.mp h
    subst ha
    simp [similarity]
  · simp only [similarity, List.length_nil, Nat.add_zero, h, if_false,
      matchTotal_bempty]
    simp [Rat.mkRat_eq_div]

/-! ## The stable descending sort and the candidate selection -/

theorem sortDesc_cons (x : String × ℚ) (l : List (String × ℚ)) :
    sortDesc (x :: l) = insertDesc x (sortDesc l) := rfl

theorem mem_insertDesc (x y : String × ℚ) :
    ∀ (l : List (String × ℚ)), y ∈ insertDesc x l → y = x ∨ y ∈ l
  | [] => by
    intro h
    simp only [insertDesc, List.mem_singleton] at h
    exact Or.inl h
  | z :: zs => by
    intro h
    simp only [insertDesc] at h
    split at h
    · rcases List.mem_cons.mp h with h | h
      · exact Or.inl h
      · exact Or.inr h
    · rcases List.mem_cons.mp h with h | h
      · exact Or.inr (List.mem_cons.mpr (Or.inl h))
      · rcases mem_insertDesc x y zs h with h | h
        · exact Or.inl h
        · exact Or.inr (List.mem_cons.mpr (Or.inr h))

theorem mem_sortDesc (y : String × ℚ) :
    ∀ (l : List (String × ℚ)), y ∈ sortDesc l → y ∈ l
  | [] => fun h => h
  | x :: xs => by
    intro h
    rw [sortDesc_cons] at h
    rcases mem_insertDesc x y (sortDesc xs) h with h | h
    · exact List.mem_cons.mpr (Or.inl h)
    · exact List.mem_cons.mpr (Or.inr (mem_sortDesc y xs h))

theorem candidatesOf_eq_nil (fl : List FileRecord) (p : String) :
    candidatesOf fl p = [] ↔
      ∀ f ∈ fl, ¬ mkRat 17 20 < similarity p.data f.url_path.data := by
  constructor
  · intro h f hf hsim
    have hnone := List.filterMap_eq_nil_iff.mp h f hf
    rw [if_pos hsim] at hnone
    exact Option.noConfusion hnone
  · intro h
    apply List.filterMap_eq_nil_iff.mpr
    intro f hf
    rw [if_neg (h f hf)]

theorem sortDesc_candidates_head (p : String) :
    ∀ (fl : List FileRecord), candidatesOf fl p ≠ [] →
      ∃ (i : Nat) (hi : i < fl.length),
        (sortDesc (candidatesOf fl p)).head? =
            some ((fl.get ⟨i, hi⟩).url_path,
              similarity p.data (fl.get ⟨i, hi⟩).url_path.data) ∧
        mkRat 17 20 < similarity p.data (fl.get ⟨i, hi⟩).url_path.data ∧
        (∀ (j : Nat) (hj : j < fl.length),
          similarity p.data (fl.get ⟨j, hj⟩).url_path.data ≤
            similarity p.data (fl.get ⟨i, hi⟩).url_path.data) ∧
        (∀ (j : Nat) (hj : j < fl.length), j < i →
          similarity p.data (fl.get ⟨j, hj⟩).url_path.data <
            similarity p.data (fl.get ⟨i, hi⟩).url_path.data) := by
  intro fl
  induction fl with
  | nil => intro h; exact absurd rfl h
  | cons f rest ih =>
    intro h
    by_cases hf : mkRat 17 20 < similarity p.data f.url_path.data
    · have hcands : candidatesOf (f :: rest) p
          = (f.url_path, similarity p.data f.url_path.data) :: candidatesOf rest p := by
        simp [candidatesOf, List.filterMap_cons, hf]
      by_cases hC : candidatesOf rest p = []
      · refine ⟨0, Nat.succ_pos _, ?_, hf, ?_, ?_⟩
        · rw [hcands, sortDesc_cons, hC]
          rfl
        · intro j hj
          cases j with
          | zero => exact le_refl _
          | succ k =>
            have hk : k < rest.length := Nat.lt_of_succ_lt_succ hj
            have hmem : rest.get ⟨k, hk⟩ ∈ rest := List.get_mem rest k hk
            have hle := (candidatesOf_eq_nil rest p).mp hC _ hmem
            exact le_of_lt (lt_of_le_of_lt (not_lt.mp hle) hf)
        · intro j hj hji
          exact absurd hji (Nat.not_lt_zero j)
      · obtain ⟨i', hi', hhead, hθ, hmax, hfirst⟩ := ih hC
        cases hsd : sortDesc (candidatesOf rest p) with
        | nil => rw [hsd] at hhead; exact absurd hhead (by simp)
        | cons y t =>
          rw [hsd] at hhead
          simp only [List.head?_cons, Option.some.injEq] at hhead
          by_cases hcmp : y.2 ≤ similarity p.data f.url_path.data
          · have hins : insertDesc (f.url_path, similarity p.data f.url_path.data) (y :: t)
                = (f.url_path, similarity p.data f.url_path.data) :: y :: t := by
              simp [insertDesc, hcmp]
            refine ⟨0, Nat.succ_pos _, ?_, hf, ?_, ?_⟩
            · rw [hcands, sortDesc_cons, hsd, hins]
              rfl
            · intro j hj
              cases j with
              | zero => exact le_refl _
              | succ k =>
                have hk : k < rest.length := Nat.lt_of_succ_lt_succ hj
                have h1 := hmax k hk
                have h2 : y.2 = similarity p.data (rest.get ⟨i', hi'⟩).url_path.data := by
                  rw [hhead]
                exact le_trans h1 (le_trans (le_of_eq h2.symm) hcmp)
            · intro j hj hji
              exact absurd hji (Nat.not_lt_zero j)
          · have hins : insertDesc (f.url_path, similarity p.data f.url_path.data) (y :: t)
                = y :: insertDesc (f.url_path, similarity p.data f.url_path.data) t := by
              simp [insertDesc, hcmp]
            have h2 : y.2 = similarity p.data (rest.get ⟨i', hi'⟩).url_path.data := by
              rw [hhead]
            have hflt : similarity p.data f.url_path.data
                < similarity p.data (rest.get ⟨i', hi'⟩).url_path.data := by
              rw [← h2]
              exact not_le.mp hcmp
            refine ⟨i' + 1, Nat.succ_lt_succ hi', ?_, hθ, ?_, ?_⟩
            · rw [hcands, sortDesc_cons, hsd, hins]
              simp only [List.head?_cons, Option.some.injEq]
              exact hhead
            · intro j hj
              cases j with
              | zero => exact le_of_lt hflt
              | succ k => exact hmax k (Nat.lt_of_succ_lt_succ hj)
            · intro j hj hji
              cases j with
              | zero => exact hflt
              | succ k =>
                exact hfirst k (Nat.lt_of_succ_lt_succ hj) (Nat.lt_of_succ_lt_succ hji)
    · have hcands : candidatesOf (f :: rest) p = candidatesOf rest p := by
        simp [candidatesOf, List.filterMap_cons, hf]
      have hC : candidatesOf rest p ≠ [] := by rw [← hcands]; exact h
      obtain ⟨i', hi', hhead, hθ, hmax, hfirst⟩ := ih hC
      refine ⟨i' + 1, Nat.succ_lt_succ hi', ?_, hθ, ?_, ?_⟩
      · rw [hcands]; exact hhead
      · intro j hj
        cases j with
        | zero => exact le_of_lt (lt_of_le_of_lt (not_lt.mp hf) hθ)
        | succ k => exact hmax k (Nat.lt_of_succ_lt_succ hj)
      · intro j hj hji
        cases j with
        | zero => exact lt_of_le_of_lt (not_lt.mp hf) hθ
        | succ k =>
          exact hfirst k (Nat.lt_of_succ_lt_succ hj) (Nat.lt_of_succ_lt_succ hji)

/-! ## `check_internal_link`: exact and fuzzy resolution -/

theorem check_internal_link_eq (fl : List FileRecord) (url : String)
    (hany : fl.any (fun f => f.url_path == stripAnchor url) = false) :
    check_internal_link fl url
      = match sortDesc (candidatesOf fl (stripAnchor url)) with
        | [] => (false, none)
        | c :: _ => (false, some c.1) := by
  simp [check_internal_link, hany]

theorem cil_suggestion_ne_empty (fl : List FileRecord) (url : String) :
    (check_internal_link fl url).2 ≠ some "" := by
  cases hany : fl.any (fun f => f.url_path == stripAnchor url) with
  | true => simp [check_internal_link, hany]
  | false =>
    rw [check_internal_link_eq fl url hany]
    cases hsd : sortDesc (candidatesOf fl (stripAnchor url)) with
    | nil => simp
    | cons c t =>
      intro hsome
      have hc1 : c.1 = "" := by simpa using hsome
      have hmem : c ∈ candidatesOf fl (stripAnchor url) := by
        apply mem_sortDesc
        rw [hsd]
        exact List.mem_cons_self c t
      obtain ⟨f, hf, hfc⟩ := List.mem_filterMap.mp hmem
      by_cases hsim : mkRat 17 20 < similarity (stripAnchor url).data f.url_path.data
      · rw [if_pos hsim] at hfc
        have hup : f.url_path = c.1 := by
          have h1 := congrArg Prod.fst (Option.some.inj hfc)
          simpa using h1
        rw [hc1] at hup
        by_cases hp : stripAnchor url = ""
        · have hcontra : fl.any (fun g => g.url_path == stripAnchor url) = true := by
            rw [List.any_eq_true]
            exact ⟨f, hf, by simp [hup, hp]⟩
          rw [hany] at hcontra
          exact Bool.noConfusion hcontra
        · have hdata : f.url_path.data = [] := by rw [hup]
          rw [hdata, similarity_nil_right] at hsim
          have hplen : (stripAnchor url).data.length ≠ 0 := by
            intro h0
            apply hp
            apply String.ext
            exact List.length_eq_zero.mp h0
          rw [if_neg hplen] at hsim
          exact absurd hsim (by decide)
      · rw [if_neg hsim] at hfc
        exact Option.noConfusion hfc

/-- C1: for every query URL whose anchor-stripped path equals no `url_path`
in the file index, `check_internal_link` returns `valid = False`; when at
least one indexed path has similarity ratio strictly above 0.85 with the
stripped path, the suggestion is the indexed path of greatest similarity,
ties broken by earliest index position; otherwise the suggestion is `None`. -/
theorem C1_fuzzy_resolution (fl : List FileRecord) (url : String)
    (hmiss : ∀ f ∈ fl, f.url_path ≠ stripAnchor url) :
    (check_internal_link fl url).1 = false ∧
    ((∃ f ∈ fl, mkRat 17 20 < similarity (stripAnchor url).data f.url_path.data) →
      ∃ (i : Nat) (hi : i < fl.length),
        (check_internal_link fl url).2 = some (fl.get ⟨i, hi⟩).url_path ∧
        mkRat 17 20 < similarity (stripAnchor url).data (fl.get ⟨i, hi⟩).url_path.data ∧
        (∀ (j : Nat) (hj : j < fl.length),
          similarity (stripAnchor url).data (fl.get ⟨j, hj⟩).url_path.data ≤
            similarity (stripAnchor url).data (fl.get ⟨i, hi⟩).url_path.data) ∧
        (∀ (j : Nat) (hj : j < fl.length), j < i →
          similarity (stripAnchor url).data (fl.get ⟨j, hj⟩).url_path.data <
            similarity (stripAnchor url).data (fl.get ⟨i, hi⟩).url_path.data)) ∧
    ((∀ f ∈ fl, ¬ mkRat 17 20 < similarity (stripAnchor url).data f.url_path.data) →
      (check_internal_link fl url).2 = none) := by
  have hany : fl.any (fun f => f.url_path == stripAnchor url) = false := by
    rw [List.any_eq_false]
    intro f hf h
    exact hmiss f hf (by simpa using h)
  refine ⟨?_, ?_, ?_⟩
  · rw [check_internal_link_eq fl url hany]
    cases sortDesc (candidatesOf fl (stripAnchor url)) <;> rfl
  · intro hex
    have hne : candidatesOf fl (stripAnchor url) ≠ [] := by
      intro hnil
      obtain ⟨f, hf, hsim⟩ := hex
      exact (candidatesOf_eq_nil fl (stripAnchor url)).mp hnil f hf hsim
    obtain ⟨i, hi, hhead, hθ, hmax, hfirst⟩ :=
      sortDesc_candidates_head (stripAnchor url) fl hne
    refine ⟨i, hi, ?_, hθ, hmax, hfirst⟩
    rw [check_internal_link_eq fl url hany]
    cases hsd : sortDesc (candidatesOf fl (stripAnchor url)) with
    | nil => rw [hsd] at hhead; exact absurd hhead (by simp)
    | cons c t =>
      rw [hsd] at hhead
      simp only [List.head?_cons, Option.some.injEq] at hhead
      rw [hhead]
  · intro hall
    have hnil : candidatesOf fl (stripAnchor url) = [] :=
      (candidatesOf_eq_nil fl (stripAnchor url)).mpr hall
    rw [check_internal_link_eq fl url hany, hnil]
    rfl

/-- Witness for C1: a one-entry index `/abcdefg` and the query `/abcdefx`
(similarity 7/8 > 0.85) yield invalid with suggestion `/abcdefg`. -/
theorem C1_fuzzy_resolution_witness :
    (∀ f ∈ [(⟨"d/abcdefg.mdx", "/abcdefg", "abcdefg.mdx"⟩ : FileRecord)],
        f.url_path ≠ stripAnchor "/abcdefx") ∧
    (check_internal_link [(⟨"d/abcdefg.mdx", "/abcdefg", "abcdefg.mdx"⟩ : FileRecord)]
        "/abcdefx").1 = false ∧
    (check_internal_link [(⟨"d/abcdefg.mdx", "/abcdefg", "abcdefg.mdx"⟩ : FileRecord)]
        "/abcdefx").2 = some "/abcdefg" :=
  ⟨by decide,
   (C1_fuzzy_resolution [(⟨"d/abcdefg.mdx", "/abcdefg", "abcdefg.mdx"⟩ : FileRecord)]
      "/abcdefx" (by decide)).1,
   by decide⟩

/-- C3: for every URL whose anchor-stripped path equals the `url_path` of
some record in the file index, `check_internal_link` returns
`(True, None)` — valid, with no suggestion. -/
theorem C3_exact_match (fl : List FileRecord) (url : String)
    (hhit : ∃ f ∈ fl, f.url_path = stripAnchor url) :
    check_internal_link fl url = (true, none) := by
  have hany : fl.any (fun f => f.url_path == stripAnchor url) = true := by
    rw [List.any_eq_true]
    obtain ⟨f, hf, he⟩ := hhit
    exact ⟨f, hf, by simpa using he⟩
  simp [check_internal_link, hany]

/-- Witness for C3: index containing `/guide/intro`, query `/guide/intro`
(and its anchored form resolves the same way). -/
theorem C3_exact_match_witness :
    (∃ f ∈ [(⟨"d/guide/intro.mdx", "/guide/intro", "guide/intro.mdx"⟩ : FileRecord)],
        f.url_path = stripAnchor "/guide/intro#sec") ∧
    check_internal_link [(⟨"d/guide/intro.mdx", "/guide/intro", "guide/intro.mdx"⟩ : FileRecord)]
        "/guide/intro#sec" = (true, none) :=
  ⟨by decide,
   C3_exact_match [(⟨"d/guide/intro.mdx", "/guide/intro", "guide/intro.mdx"⟩ : FileRecord)]
     "/guide/intro#sec" (by decide)⟩

/-! ## C2: link classification -/

/-- C2: `classify_link` is a total deterministic function of the URL
prefix, with the branches tested in priority order: a leading `#` gives
`anchor`; else `http://` or `https://` gives `external`; else a leading `/`
gives `internal_absolute`; else `./` or `../` gives `internal_relative`;
otherwise `unknown`. -/
theorem C2_classify_priority (url : String) :
    (startsWithStr url "#" = true → classify_link url = "anchor") ∧
    (startsWithStr url "#" = false →
      (startsWithStr url "http://" = true ∨ startsWithStr url "https://" = true) →
      classify_link url = "external") ∧
    (startsWithStr url "#" = false → startsWithStr url "http://" = false →
      startsWithStr url "https://" = false → startsWithStr url "/" = true →
      classify_link url = "internal_absolute") ∧
    (startsWithStr url "#" = false → startsWithStr url "http://" = false →
      startsWithStr url "https://" = false → startsWithStr url "/" = false →
      (startsWithStr url "./" = true ∨ startsWithStr url "../" = true) →
      classify_link url = "internal_relative") ∧
    (startsWithStr url "#" = false → startsWithStr url "http://" = false →
      startsWithStr url "https://" = false → startsWithStr url "/" = false →
      startsWithStr url "./" = false → startsWithStr url "../" = false →
      classify_link url = "unknown") := by
  refine ⟨?_, ?_, ?_, ?_, ?_⟩ <;> intros <;> simp_all [classify_link]

/-- Witness for C2: the five spec examples, one per branch. -/
theorem C2_classify_priority_witness :
    classify_link "#section" = "anchor" ∧
    classify_link "https://x.com" = "external" ∧
    classify_link "/guide/intro" = "internal_absolute" ∧
    classify_link "../a/b" = "internal_relative" ∧
    classify_link "images/a.png" = "unknown" :=
  ⟨(C2_classify_priority "#section").1 (by decide),
   (C2_classify_priority "https://x.com").2.1 (by decide) (Or.inr (by decide)),
   (C2_classify_priority "/guide/intro").2.2.1 (by decide) (by decide) (by decide)
     (by decide),
   (C2_classify_priority "../a/b").2.2.2.1 (by decide) (by decide) (by decide)
     (by decide) (Or.inr (by decide)),
   (C2_classify_priority "images/a.png").2.2.2.2 (by decide) (by decide) (by decide)
     (by decide) (by decide) (by decide)⟩

/-! ## Per-link analysis of `check_file_links` -/

theorem mem_foldl_cfl (fl : List FileRecord) (probe : String → Except String Nat)
    (fp : String) :
    ∀ (links : List Link) (acc : Except String (List LinkResult × Cache))
      (out : List LinkResult × Cache),
      links.foldl (cflStep fl probe fp) acc = Except.ok out →
      ∀ r ∈ out.1,
        (∃ acc0, acc = Except.ok acc0 ∧ r ∈ acc0.1) ∨
        ∃ (link : Link) (c : Cache) (rc : LinkResult × Cache),
          link ∈ links ∧ processLink fl probe fp c link = Except.ok rc ∧ r = rc.1
  | [], _, out => fun hf r hr => Or.inl ⟨out, hf, hr⟩
  | l :: ls, acc, out => by
    intro hf r hr
    rw [List.foldl_cons] at hf
    rcases mem_foldl_cfl fl probe fp ls (cflStep fl probe fp acc l) out hf r hr with
      ⟨acc0, hacc0, hmem⟩ | ⟨lk, c, rc, hlk, hok, hreq⟩
    · cases acc with
      | error e => simp [cflStep] at hacc0
      | ok acc2 =>
        cases hpl : processLink fl probe fp acc2.2 l with
        | error e => simp [cflStep, hpl] at hacc0
        | ok rc2 =>
          simp only [cflStep, hpl, Except.ok.injEq] at hacc0
          subst hacc0
          rcases List.mem_append.mp hmem with h2 | h2
          · exact Or.inl ⟨acc2, rfl, h2⟩
          · exact Or.inr ⟨l, acc2.2, rc2, List.mem_cons_self l ls, hpl,
              by simpa using h2⟩
    · exact Or.inr ⟨lk, c, rc, List.mem_cons_of_mem l hlk, hok, hreq⟩

theorem mem_check_file_links_cases (fl : List FileRecord)
    (probe : String → Except String Nat) (fp content : String) (cache : Cache)
    (out : List LinkResult × Cache)
    (hok : check_file_links fl probe fp content cache = Except.ok out)
    (r : LinkResult) (h : r ∈ out.1) :
    ∃ (link : Link) (c : Cache) (rc : LinkResult × Cache),
      link ∈ extract_links content ∧
      processLink fl probe fp c link = Except.ok rc ∧ r = rc.1 := by
  rcases mem_foldl_cfl fl probe fp (extract_links content) (Except.ok ([], cache))
      out hok r h with ⟨acc0, hacc0, hmem⟩ | h2
  · have h0 : acc0 = (([] : List LinkResult), cache) := (Except.ok.inj hacc0).symm
    subst h0
    exact absurd hmem (List.not_mem_nil r)
  · exact h2

theorem processLink_link_type (fl : List FileRecord)
    (probe : String → Except String Nat) (fp : String) (c : Cache) (link : Link)
    (rc : LinkResult × Cache)
    (hok : processLink fl probe fp c link = Except.ok rc) :
    rc.1.link_type = classify_link link.url := by
  simp only [processLink] at hok
  by_cases h1 : classify_link link.url = "internal_absolute"
  · rw [if_pos h1] at hok
    injection hok with h
    rw [← h]
  · rw [if_neg h1] at hok
    by_cases h2 : classify_link link.url = "external"
    · rw [if_pos h2] at hok
      cases hcel : check_external_link probe c link.url with
      | error e => rw [hcel] at hok; exact absurd hok (by simp)
      | ok rc2 =>
        rw [hcel] at hok
        injection hok with h
        rw [← h]
    · rw [if_neg h2] at hok
      injection hok with h
      rw [← h]

theorem processLink_link (fl : List FileRecord)
    (probe : String → Except String Nat) (fp : String) (c : Cache) (link : Link)
    (rc : LinkResult × Cache)
    (hok : processLink fl probe fp c link = Except.ok rc) :
    rc.1.link = link := by
  simp only [processLink] at hok
  by_cases h1 : classify_link link.url = "internal_absolute"
  · rw [if_pos h1] at hok
    injection hok with h
    rw [← h]
  · rw [if_neg h1] at hok
    by_cases h2 : classify_link link.url = "external"
    · rw [if_pos h2] at hok
      cases hcel : check_external_link probe c link.url with
      | error e => rw [hcel] at hok; exact absurd hok (by simp)
      | ok rc2 =>
        rw [hcel] at hok
        injection hok with h
        rw [← h]
    · rw [if_neg h2] at hok
      injection hok with h
      rw [← h]

theorem processLink_internal_confidence (fl : List FileRecord)
    (probe : String → Except String Nat) (fp : String) (c : Cache) (link : Link)
    (rc : LinkResult × Cache) (s : String)
    (hok : processLink fl probe fp c link = Except.ok rc)
    (hty : rc.1.link_type = "internal_absolute")
    (hs : rc.1.suggestion = some s) :
    rc.1.confidence =
      if similarity link.url.data s.data > mkRat 9 10 then "high" else "medium" := by
  have h1 : classify_link link.url = "internal_absolute" := by
    rw [← processLink_link_type fl probe fp c link rc hok, hty]
  simp only [processLink] at hok
  rw [if_pos h1] at hok
  injection hok with h
  subst h
  have hsugg : (check_internal_link fl link.url).2 = some s := by simpa using hs
  have hne : s ≠ "" := by
    intro h0
    rw [h0] at hsugg
    exact cil_suggestion_ne_empty fl link.url hsugg
  have htr : truthy (some s) = true := by
    simp [truthy, hne]
  simp [hsugg, htr]

/-- C4: every successful `check_file_links` result for an `internal_absolute`
link with a suggestion has confidence "high" exactly when the similarity
between the original URL (as written in the link, anchor included) and the
suggestion exceeds 0.9, and "medium" otherwise. -/
theorem C4_internal_confidence (fl : List FileRecord)
    (probe : String → Except String Nat) (fp content : String) (cache : Cache)
    (out : List LinkResult × Cache)
    (hok : check_file_links fl probe fp content cache = Except.ok out)
    (r : LinkResult) (hr : r ∈ out.1)
    (hty : r.link_type = "internal_absolute") (s : String)
    (hs : r.suggestion = some s) :
    r.confidence =
      if similarity r.link.url.data s.data > mkRat 9 10 then "high" else "medium" := by
  obtain ⟨link, c, rc, hlink, hpl, rfl⟩ :=
    mem_check_file_links_cases fl probe fp content cache out hok r hr
  rw [processLink_link fl probe fp c link rc hpl]
  exact processLink_internal_confidence fl probe fp c link rc s hpl hty hs

/-- Witness for C4: the file `[x](/abcdefx)` checked against the index
`/abcdefg` (similarity 7/8, above 0.85 but not above 0.9 → "medium"). -/
theorem C4_internal_confidence_witness :
    (check_file_links [(⟨"d/abcdefg.mdx", "/abcdefg", "abcdefg.mdx"⟩ : FileRecord)]
        c4probe "f" "[x](/abcdefx)" [] = Except.ok ([c4r], []) ∧
      c4r ∈ ([c4r], ([] : Cache)).1 ∧
      c4r.link_type = "internal_absolute" ∧ c4r.suggestion = some "/abcdefg") ∧
    c4r.confidence =
      if similarity c4r.link.url.data "/abcdefg".data > mkRat 9 10 then "high"
      else "medium" :=
  ⟨⟨rfl, by decide, rfl, rfl⟩,
   C4_internal_confidence [(⟨"d/abcdefg.mdx", "/abcdefg", "abcdefg.mdx"⟩ : FileRecord)]
     c4probe "f" "[x](/abcdefx)" [] ([c4r], []) rfl c4r (by decide) (by decide)
     "/abcdefg" rfl⟩

/-! ## C7 and C8: the external prober -/

/-- The uncaught `ValueError`: a URL whose netloc opens a bracket without
closing it makes `urlparse` raise `Invalid IPv6 URL` before the `try` block
of `check_external_link`, so the exception escapes and aborts the run. -/
theorem check_external_link_invalid_ipv6 :
    check_external_link (fun _ => Except.ok 200) [] "http://[a.com/x"
      = Except.error "Invalid IPv6 URL" := rfl

theorem strData_append (a b : String) : (a ++ b).data = a.data ++ b.data := rfl

theorem strHead_append_ne_nil (a rest : String) (ha : a.data ≠ []) :
    (a ++ rest).data ≠ [] := by
  intro h0
  rw [strData_append] at h0
  exact ha (List.append_eq_nil.mp h0).1

theorem replaceAllStr_of_countOcc_zero (s old new : String)
    (h : countOccStr old s = 0) : replaceAllStr s old new = s := by
  unfold replaceAllStr
  rw [replaceAux_of_countOcc_zero old.data new.data s.data.length s.data h]

/-- C5 (amended): for every invalid markdown- or href-type link result with
a truthy suggestion, a Fix record is appended exactly when the substituted
content differs from the content read; and a second `apply_fix` call with
the same arguments on the already-fixed content returns False, leaves the
content unchanged and appends no further Fix record, **provided** the
content produced by the first call contains no occurrence of the old link
token (the proviso the counterexample shows to be necessary). -/
theorem C5_apply_fix_amended (fp content : String) (fixes : List FixRecord)
    (lr : LinkResult) (s : String)
    (hv : lr.valid = false) (hs : lr.suggestion = some s) (hne : s ≠ "")
    (hty : lr.link.type = "markdown" ∨ lr.link.type = "href") :
    ((apply_fix fp content fixes lr).content ≠ content →
        (apply_fix fp content fixes lr).ok = true ∧
        (apply_fix fp content fixes lr).fixes
          = fixes ++ [⟨fp, lr.link.url, s, lr.confidence, lr.link_type⟩]) ∧
    ((apply_fix fp content fixes lr).content = content →
        (apply_fix fp content fixes lr).ok = false ∧
        (apply_fix fp content fixes lr).fixes = fixes) ∧
    (countOccStr (oldToken lr) (apply_fix fp content fixes lr).content = 0 →
      apply_fix fp (apply_fix fp content fixes lr).content
          (apply_fix fp content fixes lr).fixes lr
        = ⟨false, (apply_fix fp content fixes lr).content,
            (apply_fix fp content fixes lr).fixes⟩) := by
  have htr : truthy (some s) = true := by
    simp [truthy, hne]
  have heqg : ∀ (c : String) (fx : List FixRecord),
      apply_fix fp c fx lr
        = applyFixWrite fp c fx lr lr.link.url s
            (replaceAllStr c (oldToken lr) (newToken lr s)) := by
    intro c fx
    rcases hty with hm | hm <;> simp [apply_fix, hv, htr, hs, hm, oldToken, newToken]
  by_cases hch : replaceAllStr content (oldToken lr) (newToken lr s) = content
  · have hres : apply_fix fp content fixes lr = ⟨false, content, fixes⟩ := by
      rw [heqg content fixes]
      simp [applyFixWrite, hch]
    refine ⟨?_, ?_, ?_⟩
    · intro hc
      rw [hres] at hc
      exact absurd rfl hc
    · intro _
      rw [hres]
      exact ⟨rfl, rfl⟩
    · intro _
      rw [hres]
      exact hres
  · have hres : apply_fix fp content fixes lr
        = ⟨true, replaceAllStr content (oldToken lr) (newToken lr s),
            fixes ++ [⟨fp, lr.link.url, s, lr.confidence, lr.link_type⟩]⟩ := by
      rw [heqg content fixes]
      simp [applyFixWrite, hch]
    refine ⟨?_, ?_, ?_⟩
    · intro _
      rw [hres]
      exact ⟨rfl, rfl⟩
    · intro hc
      rw [hres] at hc
      exact absurd hc hch
    · intro hcnt
      rw [hres] at hcnt ⊢
      rw [heqg]
      simp only [applyFixWrite,
        replaceAllStr_of_countOcc_zero _ _ (newToken lr s) hcnt]
      simp

/-- C5 counterexample: with the suggestion `/guides/intro)` (a url_path the
index can contain, derived from a file named `intro).mdx`), the first call
rewrites `[x](/guides/intro)` into `[x](/guides/intro))`, which still
contains the old token `[x](/guides/intro)`; the second call with the same
arguments therefore substitutes again — it returns True, changes the content
and appends a second Fix record, contradicting the claim as stated. -/
theorem C5_second_call_not_noop :
    (apply_fix "f" (apply_fix "f" "[x](/guides/intro)" [] c5cLr).content
        (apply_fix "f" "[x](/guides/intro)" [] c5cLr).fixes c5cLr).ok = true ∧
    (apply_fix "f" (apply_fix "f" "[x](/guides/intro)" [] c5cLr).content
        (apply_fix "f" "[x](/guides/intro)" [] c5cLr).fixes c5cLr).fixes.length = 2 ∧
    (apply_fix "f" (apply_fix "f" "[x](/guides/intro)" [] c5cLr).content
        (apply_fix "f" "[x](/guides/intro)" [] c5cLr).fixes c5cLr).content
      ≠ (apply_fix "f" "[x](/guides/intro)" [] c5cLr).content := by
  decide

/-- Witness for the amended C5: an ordinary fix, after which the old token
no longer occurs, so the second call is a no-op. -/
theorem C5_apply_fix_amended_witness :
    (apply_fix "f" "[x](/abcdefx)" [] c5wLr).ok = true ∧
    (apply_fix "f" "[x](/abcdefx)" [] c5wLr).fixes
      = [⟨"f", "/abcdefx", "/abcdefg", "medium", "internal_absolute"⟩] ∧
    apply_fix "f" (apply_fix "f" "[x](/abcdefx)" [] c5wLr).content
        (apply_fix "f" "[x](/abcdefx)" [] c5wLr).fixes c5wLr
      = ⟨false, (apply_fix "f" "[x](/abcdefx)" [] c5wLr).content,
          (apply_fix "f" "[x](/abcdefx)" [] c5wLr).fixes⟩ := by
  have h := C5_apply_fix_amended "f" "[x](/abcdefx)" [] c5wLr "/abcdefg"
    rfl rfl (by decide) (Or.inl rfl)
  refine ⟨(h.1 (by decide)).1, ?_, h.2.2 (by decide)⟩
  rw [(h.1 (by decide)).2]
  rfl

/-- C6: a `src`-type link result, even when invalid with a non-None
suggestion, is never auto-fixed: `apply_fix` returns False with content and
fix list unchanged; the `check_all_links` step still records the link among
the broken links; and with no recorded fix for the same file and URL the
link remains in the remaining-broken report. -/
theorem C6_src_unfixable (fp content : String) (fixes : List FixRecord)
    (broken : List LinkResult) (lr : LinkResult)
    (hty : lr.link.type = "src") (hv : lr.valid = false) :
    apply_fix fp content fixes lr = ⟨false, content, fixes⟩ ∧
    check_all_links_step fp content fixes broken lr
      = ⟨content, fixes, broken ++ [lr], false⟩ ∧
    ((∀ fx ∈ fixes, ¬(fx.old_url = lr.link.url ∧ fx.file = lr.file)) →
      lr ∈ remaining_broken (broken ++ [lr]) fixes) := by
  have hax : apply_fix fp content fixes lr = ⟨false, content, fixes⟩ := by
    by_cases hguard : lr.valid = true ∨ truthy lr.suggestion = false
    · simp [apply_fix, hguard]
    · cases hsug : lr.suggestion with
      | none => simp [apply_fix, hguard, hsug]
      | some s => simp [apply_fix, hguard, hsug, hty]
  refine ⟨hax, ?_, ?_⟩
  · unfold check_all_links_step
    rw [if_neg (by simp [hv])]
    by_cases hcond :
        (lr.confidence = "high" ∨ lr.confidence = "medium") ∧ truthy lr.suggestion = true
    · rw [if_pos hcond]
      simp [hax]
    · rw [if_neg hcond]
  · intro hnofix
    unfold remaining_broken
    rw [List.mem_filter]
    refine ⟨List.mem_append.mpr (Or.inr (List.mem_cons_self lr [])), ?_⟩
    simp only [Bool.not_eq_true', List.any_eq_false, Bool.and_eq_true, beq_iff_eq]
    intro fx hfx
    exact fun hcon => hnofix fx hfx ⟨hcon.1, hcon.2⟩

/-- Witness for C6: a broken `src="/img.png"` with a suggestion is left
untouched and reported. -/
theorem C6_src_unfixable_witness :
    apply_fix "f" "src=\"/img.png\"" [] c6lr = ⟨false, "src=\"/img.png\"", []⟩ ∧
    check_all_links_step "f" "src=\"/img.png\"" [] [] c6lr
      = ⟨"src=\"/img.png\"", [], [c6lr], false⟩ ∧
    c6lr ∈ remaining_broken [c6lr] [] := by
  have h := C6_src_unfixable "f" "src=\"/img.png\"" [] [] c6lr rfl rfl
  exact ⟨h.1, h.2.1, h.2.2 (fun fx hfx => absurd hfx (List.not_mem_nil fx))⟩

/-- C9 (code-bug evidence): `build_file_list` derives the URL path with
`str.replace(".mdx", "")`, which removes every occurrence of `.mdx` and not
just the final extension as the code comment states; the distinct files
`ab.mdx` and `a.mdxb.mdx` both receive the URL path `/ab`, violating the
claimed pairwise distinctness. -/
theorem C9_url_path_collision :
    ((build_file_list "docs" ["ab.mdx", "a.mdxb.mdx"]).get ⟨0, by decide⟩).url_path
      = ((build_file_list "docs" ["ab.mdx", "a.mdxb.mdx"]).get ⟨1, by decide⟩).url_path ∧
    ((build_file_list "docs" ["ab.mdx", "a.mdxb.mdx"]).get ⟨0, by decide⟩).relative_path
      ≠ ((build_file_list "docs" ["ab.mdx", "a.mdxb.mdx"]).get ⟨1, by decide⟩).relative_path := by
  decide

/-- C10: when `apply_fix` rewrites a markdown- or href-type link result
(invalid, truthy suggestion) and the old token occurs at two or more scan
positions in the content, the substitution is global: the resulting content
is the everywhere-replacement, it differs from the replacement of only the
first occurrence, and exactly one Fix record is appended for the call. -/
theorem C10_replace_global (fp content : String) (fixes : List FixRecord)
    (lr : LinkResult) (s : String)
    (hv : lr.valid = false) (hs : lr.suggestion = some s) (hne : s ≠ "")
    (hty : lr.link.type = "markdown" ∨ lr.link.type = "href")
    (hok : (apply_fix fp content fixes lr).ok = true)
    (hcnt : 2 ≤ countOccStr (oldToken lr) content) :
    (apply_fix fp content fixes lr).content
        = replaceAllStr content (oldToken lr) (newToken lr s) ∧
    (apply_fix fp content fixes lr).content
        ≠ replaceFirstStr content (oldToken lr) (newToken lr s) ∧
    (apply_fix fp content fixes lr).fixes
        = fixes ++ [⟨fp, lr.link.url, s, lr.confidence, lr.link_type⟩] := by
  have htr : truthy (some s) = true := by
    simp [truthy, hne]
  have heqg : apply_fix fp content fixes lr
      = applyFixWrite fp content fixes lr lr.link.url s
          (replaceAllStr content (oldToken lr) (newToken lr s)) := by
    rcases hty with hm | hm <;> simp [apply_fix, hv, htr, hs, hm, oldToken, newToken]
  have hold : (oldToken lr).data ≠ [] := by
    rcases hty with hm | hm
    · unfold oldToken
      rw [if_pos hm]
      exact strHead_append_ne_nil _ _ (strHead_append_ne_nil _ _
        (strHead_append_ne_nil _ _ (strHead_append_ne_nil _ _ (by decide))))
    · unfold oldToken
      rw [if_neg (by rw [hm]; decide)]
      exact strHead_append_ne_nil _ _ (strHead_append_ne_nil _ _ (by decide))
  by_cases hch : replaceAllStr content (oldToken lr) (newToken lr s) = content
  · rw [heqg] at hok
    simp [applyFixWrite, hch] at hok
  · have hres : apply_fix fp content fixes lr
        = ⟨true, replaceAllStr content (oldToken lr) (newToken lr s),
            fixes ++ [⟨fp, lr.link.url, s, lr.confidence, lr.link_type⟩]⟩ := by
      rw [heqg]
      simp [applyFixWrite, hch]
    have hnew : (newToken lr s).data ≠ [] := by
      rcases hty with hm | hm
      · unfold newToken
        rw [if_pos hm]
        exact strHead_append_ne_nil _ _ (strHead_append_ne_nil _ _
          (strHead_append_ne_nil _ _ (strHead_append_ne_nil _ _ (by decide))))
      · unfold newToken
        rw [if_neg (by rw [hm]; decide)]
        exact strHead_append_ne_nil _ _ (strHead_append_ne_nil _ _ (by decide))
    have hne2 : (oldToken lr).data ≠ (newToken lr s).data := by
      intro he
      apply hch
      unfold replaceAllStr
      rw [he, replaceAux_same (newToken lr s).data hnew content.data.length
        content.data (le_refl _)]
    refine ⟨by rw [hres], ?_, by rw [hres]⟩
    rw [hres]
    intro he
    have hd := congrArg String.data he
    exact replaceAux_ne_first (oldToken lr).data (newToken lr s).data hold hne2
      content.data.length content.data (le_refl _) hcnt hd

/-- Witness for C10: the old token occurs twice; both occurrences are
rewritten and one Fix record is appended. -/
theorem C10_replace_global_witness :
    (apply_fix "f" "[x](/abcdefx) and [x](/abcdefx)" [] c10lr).content
        = replaceAllStr "[x](/abcdefx) and [x](/abcdefx)" (oldToken c10lr)
            (newToken c10lr "/abcdefg") ∧
    (apply_fix "f" "[x](/abcdefx) and [x](/abcdefx)" [] c10lr).content
        ≠ replaceFirstStr "[x](/abcdefx) and [x](/abcdefx)" (oldToken c10lr)
            (newToken c10lr "/abcdefg") ∧
    (apply_fix "f" "[x](/abcdefx) and [x](/abcdefx)" [] c10lr).fixes
        = [⟨"f", "/abcdefx", "/abcdefg", "medium", "internal_absolute"⟩] :=
  C10_replace_global "f" "[x](/abcdefx) and [x](/abcdefx)" [] c10lr "/abcdefg"
    rfl rfl (by decide) (Or.inl rfl) (by decide) (by decide)
